import Mathlib

/-!
Verification of the Task Tab new-tab extension core logic.

The definitions below are a shallow embedding of the JavaScript source
(`newtab.js` and the badge service worker).  Calendar dates are modelled
as integer day numbers (the `YYYY-MM-DD` local-date strings of the source
sort and compare exactly like their day numbers, and a difference of one
day number is a difference of one calendar day).  JavaScript strings are
modelled as `List Char` where their content matters (task text and
trimming) and as `String` where they are opaque identifiers.
-/

set_option autoImplicit false

namespace TaskTab

/-- Whitespace test used by the model of JavaScript `String.prototype.trim`. -/
def isWs (c : Char) : Bool := c.isWhitespace

/-- Model of JavaScript `text.trim()`: drop whitespace from the front,
then from the back (the back side is handled by reversing). -/
def jsTrim (s : List Char) : List Char :=
  (((s.dropWhile isWs).reverse.dropWhile isWs)).reverse

/-- Live task object created by `createTask` in `newtab.js`. -/
structure Task where
  id : String
  text : List Char
  done : Bool
  createdAt : String
  deriving Repr, DecidableEq

/-- Model of `createTask(text)` from `newtab.js`.  The fresh UUID produced
by `crypto.randomUUID()` and the `new Date().toISOString()` timestamp are
nondeterministic inputs of the source, so they are parameters here. -/
def createTask (freshId : String) (now : String) (text : List Char) : Task :=
  { id := freshId, text := jsTrim text, done := false, createdAt := now }

/-- Model of `addTask(text)` from `newtab.js`: a blank input is rejected
before anything is stored, otherwise the created task is pushed at the
end of the task list. -/
def addTask (freshId : String) (now : String) (text : List Char)
    (tasks : List Task) : List Task :=
  if jsTrim text = [] then tasks
  else tasks ++ [createTask freshId now text]

/-- Model of `toggleTask(id)` from `newtab.js`: `tasks.find` locates the
first task with the given id and its `done` flag is negated in place. -/
def toggleTask (tid : String) : List Task → List Task
  | [] => []
  | t :: rest =>
    if t.id = tid then { t with done := !t.done } :: rest
    else t :: toggleTask tid rest

/-- Model of the backwards scan of `deleteLastTask` in `newtab.js`:
`scanBack tasks m` checks indices `m-1, m-2, ..., 0` in that order and
returns the first index holding a task that is not done. -/
def scanBack (tasks : List Task) : Nat → Option Nat
  | 0 => none
  | i + 1 =>
    match tasks[i]? with
    | some t => if !t.done then some i else scanBack tasks i
    | none => scanBack tasks i

/-- Model of `deleteLastTask()` from `newtab.js`: walk the list from the
end, remove (`splice(i, 1)`) the first not-done task found; when every
task is done the list is left untouched (the source returns without
saving). -/
def deleteLastTask (tasks : List Task) : List Task :=
  match scanBack tasks tasks.length with
  | some i => tasks.eraseIdx i
  | none => tasks

/-- Snapshot entry `{text, done}` stored in the daily history by
`snapshotToday` in `newtab.js`. -/
structure SimpleTask where
  text : List Char
  done : Bool
  deriving Repr, DecidableEq

/-- Day entry `{tasks, allDone}` stored under a date key in `dailyHistory`. -/
structure DaySnapshot where
  tasks : List SimpleTask
  allDone : Bool
  deriving Repr, DecidableEq

/-- Daily history: the `dailyHistory` object of `newtab.js`, a mapping from
date keys (modelled as integer day numbers) to day snapshots.  A JavaScript
object never holds two entries with the same key, so well-formed histories
have pairwise distinct keys. -/
def History := List (Int × DaySnapshot)

instance : DecidableEq History := by unfold History; infer_instance

/-- Key list of a history (the `Object.keys(dailyHistory)` of the source,
before sorting). -/
def History.keys (h : History) : List Int := h.map Prod.fst

/-- Property lookup `dailyHistory[key]` on the modelled object. -/
def hLookup : History → Int → Option DaySnapshot
  | [], _ => none
  | (k, s) :: rest, d => if k = d then some s else hLookup rest d

/-- Combined access `dailyHistory[key] && dailyHistory[key].allDone` used
throughout `calculateStreak`. -/
def allDoneAt (h : History) (d : Int) : Bool :=
  match hLookup h d with
  | some s => s.allDone
  | none => false

/-- Property assignment `dailyHistory[key] = snapshot` on the modelled
object: replace the entry whose key matches, or append a new entry. -/
def setKey : History → Int → DaySnapshot → History
  | [], d, s => [(d, s)]
  | (k, v) :: rest, d, s =>
    if k = d then (d, s) :: rest else (k, v) :: setKey rest d s

/-- Snapshot built by `snapshotToday(tasks)` in `newtab.js`: the tasks are
copied down to `{text, done}` pairs and `allDone` is
`tasks.length > 0 && tasks.every(t => t.done)`. -/
def snapshotOf (tasks : List Task) : DaySnapshot :=
  { tasks := tasks.map fun t => { text := t.text, done := t.done },
    allDone := decide (0 < tasks.length) && tasks.all fun t => t.done }

/-- Model of `snapshotToday(tasks)` writing today's entry into the daily
history (`recordToday` in the specification): the entry under today's key
is replaced or inserted. -/
def recordToday (h : History) (today : Int) (tasks : List Task) : History :=
  setKey h today (snapshotOf tasks)

/-- Backwards walk of `calculateStreak` in `newtab.js`: starting at day `d`,
count consecutive days whose history entry exists with `allDone` true,
moving one day back at a time.  The source's `while (true)` loop visits at
most one day per history entry (the visited days are pairwise distinct keys
of the history), so a fuel of `h.length` is exact; `backRun_fuel_sufficient`
below proves that larger fuels change nothing. -/
def backRun (h : History) : Int → Nat → Nat
  | _, 0 => 0
  | d, fuel + 1 =>
    if allDoneAt h d then backRun h (d - 1) fuel + 1 else 0

/-- Loop body of the best-streak scan of `calculateStreak` in `newtab.js`,
carried over the ascending date list with the previous sorted date, the
running run length and the best seen so far: an all-done date extends the
run when the previous sorted date is exactly one day earlier and all-done,
otherwise restarts it at 1 (the first date always restarts at 1); a
not-all-done date resets the run to 0. -/
def bestScanAux (h : History) : List Int → Option Int → Nat → Nat → Nat
  | [], _, _, best => best
  | d :: rest, prev, run, best =>
    if allDoneAt h d then
      let run := match prev with
        | none => 1
        | some p => if d - p = 1 ∧ allDoneAt h p then run + 1 else 1
      bestScanAux h rest (some d) run (max best run)
    else bestScanAux h rest (some d) 0 best

/-- Model of `calculateStreak()` from `newtab.js`, with today's date passed
explicitly (the source reads it from the clock via `todayString()`).
Returns the `{current, best}` pair. -/
def calculateStreak (h : History) (today : Int) : Nat × Nat :=
  let dates := h.keys.insertionSort (· ≤ ·)
  if dates = [] then (0, 0)
  else
    let current :=
      (if allDoneAt h today then 1 else 0) + backRun h (today - 1) h.length
    let best := bestScanAux h dates none 0 0
    (current, max best current)

/-!
Specification-side definitions.  The two definitions below are written
from the wording of the specification (§4.2 of the spec) rather than from
the source, so that the refinement claims compare the source against them.
-/

/-- Modelled from the spec: the cursor walk of the current-streak
procedure — "count one per consecutive preceding calendar day whose entry
exists with allDone = true, stopping at the first missing entry or entry
with allDone = false".  Fueled exactly like `backRun` (the walk can visit
at most one day per history entry). -/
def specWalkBack (h : History) : Int → Nat → Nat
  | _, 0 => 0
  | cursor, fuel + 1 =>
    match hLookup h cursor with
    | some s => if s.allDone then 1 + specWalkBack h (cursor - 1) fuel else 0
    | none => 0

/-- Modelled from the spec: the current-streak procedure — "if
history[today] exists with allDone = true, count 1; in either case move
the cursor to today - 1 day", then walk back with `specWalkBack`. -/
def specCurrentStreak (h : History) (today : Int) : Nat :=
  let start :=
    match hLookup h today with
    | some s => if s.allDone then 1 else 0
    | none => 0
  start + specWalkBack h (today - 1) h.length

/-- Modelled from the spec: the best-streak scan — for each recorded date
in ascending order with `allDone = true`, the run is incremented when the
date is the first recorded date or the immediately preceding calendar day
(date minus 1, looked up in the whole history, not merely the previous
sorted entry) is present with `allDone = true`, and restarts at 1
otherwise; an `allDone = false` date resets the run to 0; the maximum run
seen is tracked. -/
def specScanAux (h : History) : List Int → Bool → Nat → Nat → Nat
  | [], _, _, best => best
  | d :: rest, isFirst, run, best =>
    if allDoneAt h d then
      let run := if isFirst || allDoneAt h (d - 1) then run + 1 else 1
      specScanAux h rest false run (max best run)
    else specScanAux h rest false 0 best

/-- Modelled from the spec: the longest historical run, by scanning the
recorded dates in ascending order. -/
def specBestScan (h : History) : Nat :=
  specScanAux h (h.keys.insertionSort (· ≤ ·)) true 0 0

/-- Snapshot of a single completed task, used by the concrete test
histories below. -/
def doneSnap : DaySnapshot := ⟨[{ text := ['t'], done := true }], true⟩

/-- Test history of the spec's fourth streak property, with day 100 as
today: today and the three preceding days are recorded all-done and day
96 (the fourth-preceding day) is absent. -/
def exampleRun4 : History :=
  [(100, doneSnap), (99, doneSnap), (98, doneSnap), (97, doneSnap)]

/-- Test history of the spec's fifth streak property, with day 100 as
today: a five-day all-done run starting two weeks before today (days
86-90), a two-day all-done run ending yesterday (days 98 and 99), and no
entry for today (day 100). -/
def exampleGapRuns : History :=
  [(86, doneSnap), (87, doneSnap), (88, doneSnap), (89, doneSnap),
    (90, doneSnap), (98, doneSnap), (99, doneSnap)]

/-!
Calendar view model.  The source computes the weekday of the first of the
month with `new Date(year, month, 1).getDay()` (0 = Sunday) and the month
length with `new Date(year, month + 1, 0).getDate()`.  Both are modelled
below over the proleptic Gregorian calendar: `civilToDays` is the standard
days-from-civil conversion (day 0 = 1970-01-01, months 1-based), a
weekday is its day number shifted by the Thursday epoch, and month
lengths follow the Gregorian leap rule.
-/

/-- Gregorian leap-year test. -/
def isLeapYear (y : Int) : Bool :=
  y % 4 = 0 && (y % 100 ≠ 0 || y % 400 = 0)

/-- Number of days of the month given as `(year, month)` with the source's
0-based month (0 = January); models `new Date(year, month + 1, 0).getDate()`. -/
def daysInMonth (year : Int) (month : Nat) : Nat :=
  match month with
  | 0 => 31
  | 1 => if isLeapYear year then 29 else 28
  | 2 => 31
  | 3 => 30
  | 4 => 31
  | 5 => 30
  | 6 => 31
  | 7 => 31
  | 8 => 30
  | 9 => 31
  | 10 => 30
  | _ => 31

/-- Day number (days since 1970-01-01) of the civil date `y-m-d` with a
1-based month, by the standard days-from-civil algorithm. -/
def civilToDays (y m d : Int) : Int :=
  let y := if m ≤ 2 then y - 1 else y
  let era := y / 400
  let yoe := y - era * 400
  let mp := (m + 9) % 12
  let doy := (153 * mp + 2) / 5 + d - 1
  let doe := yoe * 365 + yoe / 4 - yoe / 100 + doy
  era * 146097 + doe - 719468

/-- Weekday index with 0 = Sunday of the civil date `y-m-d` (1-based
month); day 0 = 1970-01-01 was a Thursday.  Models
`new Date(y, m - 1, d).getDay()`. -/
def weekdaySun0 (y m d : Int) : Nat :=
  ((civilToDays y m d + 4) % 7).toNat

/-- Number of leading padding cells emitted by `renderCalendar(year, month)`
(0-based month): the weekday index of the first of the month. -/
def firstWeekday (year : Int) (month : Nat) : Nat :=
  weekdaySun0 year (month + 1) 1

/-- Cell of the rendered calendar grid: either an `empty` padding cell or a
day cell carrying the day-of-month number, the `today` highlight, whether
the history holds data for the day, and that entry's `allDone` flag
(`false` when there is no entry, matching the absent CSS class). -/
inductive CalendarCell where
  | empty
  | day (dayNum : Nat) (isToday : Bool) (hasData : Bool) (allDone : Bool)
  deriving Repr, DecidableEq

/-- Day cell built by the second loop of `renderCalendar` for day `dayNum`
of the displayed `(year, month)` (0-based month). -/
def mkDayCell (h : History) (today : Int) (year : Int) (month : Nat)
    (dayNum : Nat) : CalendarCell :=
  let key := civilToDays year (month + 1 : Nat) (dayNum : Int)
  match hLookup h key with
  | some s => .day dayNum (decide (key = today)) true s.allDone
  | none => .day dayNum (decide (key = today)) false false

/-- Model of the cell sequence appended to the grid by
`renderCalendar(year, month)` in `newtab.js` (`layoutMonth` in the
specification): `firstDay` empty padding cells, then one day cell per day
of the month in order.  Today's date is passed explicitly (the source
reads it from the clock via `todayString()`). -/
def layoutMonth (h : History) (today : Int) (year : Int) (month : Nat) :
    List CalendarCell :=
  (List.range (firstWeekday year month)).map (fun _ => CalendarCell.empty) ++
    (List.range' 1 (daysInMonth year month)).map (mkDayCell h today year month)

/-!
Badge service worker (the badge-rendering collaborator).  Its
`chrome.runtime.onMessage` listener reacts to `UPDATE_BADGE` messages.
-/

/-- Message `{type, count}` sent to the service worker; a JavaScript
`null` or `undefined` count is `none`. -/
structure BadgeMessage where
  type : String
  count : Option Int

/-- Model of the `chrome.runtime.onMessage` listener of the service
worker: the badge text it sets in response to a message, or `none` when
the message is ignored (wrong type).  A missing count clears the badge;
otherwise the count is rendered in decimal when positive and the badge
is cleared when not. -/
def onMessageBadgeText (msg : BadgeMessage) : Option String :=
  if msg.type ≠ "UPDATE_BADGE" then none
  else
    match msg.count with
    | none => some ""
    | some count => some (if count > 0 then toString count else "")

/-! Helper lemmas about the history association object. -/

lemma hLookup_setKey_self (h : History) (d : Int) (s : DaySnapshot) :
    hLookup (setKey h d s) d = some s := by
  induction h with
  | nil => simp [setKey, hLookup]
  | cons kv rest ih =>
    obtain ⟨k, v⟩ := kv
    by_cases hk : k = d
    · simp [setKey, hLookup, hk]
    · simp [setKey, hLookup, hk, ih]

lemma keys_setKey (h : History) (d : Int) (s : DaySnapshot) :
    (setKey h d s).keys = if d ∈ h.keys then h.keys else h.keys ++ [d] := by
  induction h with
  | nil => simp [setKey, History.keys]
  | cons kv rest ih =>
    obtain ⟨k, v⟩ := kv
    by_cases hk : k = d
    · simp [setKey, History.keys, hk]
    · have hne : ¬d = k := fun hdk => hk hdk.symm
      simp only [History.keys, List.map_cons] at ih ⊢
      simp only [setKey, if_neg hk, List.map_cons, List.mem_cons, hne, false_or]
      rw [ih]
      by_cases hd : d ∈ List.map Prod.fst rest <;> simp [hd]

lemma setKey_setKey (h : History) (d : Int) (s₁ s₂ : DaySnapshot) :
    setKey (setKey h d s₁) d s₂ = setKey h d s₂ := by
  induction h with
  | nil => simp [setKey]
  | cons kv rest ih =>
    obtain ⟨k, v⟩ := kv
    by_cases hk : k = d
    · simp [setKey, hk]
    · simp [setKey, hk, ih]

lemma count_keys_setKey_self (h : History) (d : Int) (s : DaySnapshot)
    (hnd : h.keys.Nodup) : (setKey h d s).keys.count d = 1 := by
  rw [keys_setKey]
  by_cases hd : d ∈ h.keys
  · simpa [hd] using List.count_eq_one_of_mem hnd hd
  · simp [hd, List.count_eq_zero_of_not_mem hd]

/-- C4: the snapshot stored for today by `recordToday` is exactly
`snapshotOf tasks`, its `allDone` flag is true precisely when the task
list is non-empty and every task is done, and the snapshot of an empty
task list has `allDone = false`. -/
theorem recordToday_allDone_iff :
    ∀ (h : History) (today : Int) (tasks : List Task),
      hLookup (recordToday h today tasks) today = some (snapshotOf tasks)
      ∧ ((snapshotOf tasks).allDone = true ↔
            tasks ≠ [] ∧ ∀ t ∈ tasks, t.done = true)
      ∧ (snapshotOf ([] : List Task)).allDone = false := by
  intro h today tasks
  refine ⟨hLookup_setKey_self h today (snapshotOf tasks), ?_, by simp [snapshotOf]⟩
  simp [snapshotOf, List.all_eq_true, List.length_pos]

/-- C5: writing today's snapshot twice replaces the entry (the date key
still occurs exactly once, and the stored snapshot is the second call's),
and repeating `recordToday` with the same task list is idempotent. -/
theorem recordToday_overwrites (h : History) (today : Int)
    (ts₁ ts₂ : List Task) (hnd : h.keys.Nodup) :
    (recordToday (recordToday h today ts₁) today ts₂).keys.count today = 1
    ∧ hLookup (recordToday (recordToday h today ts₁) today ts₂) today
        = some (snapshotOf ts₂)
    ∧ recordToday (recordToday h today ts₁) today ts₁
        = recordToday h today ts₁ := by
  refine ⟨?_, hLookup_setKey_self _ _ _, setKey_setKey h today _ _⟩
  have hnd' : (recordToday h today ts₁).keys.Nodup := by
    unfold recordToday
    rw [keys_setKey]
    by_cases hd : today ∈ h.keys
    · simpa [hd]
    · simpa [hd, List.nodup_append] using hnd
  exact count_keys_setKey_self _ _ _ hnd'

/-- C5 witness: a concrete overwrite of today's entry. -/
theorem recordToday_overwrites_witness :
    (recordToday (recordToday [(1, ⟨[], false⟩)] 2 []) 2
        [⟨"a", ['x'], true, "d"⟩]).keys.count 2 = 1
    ∧ hLookup (recordToday (recordToday [(1, ⟨[], false⟩)] 2 []) 2
        [⟨"a", ['x'], true, "d"⟩]) 2
        = some (snapshotOf [⟨"a", ['x'], true, "d"⟩])
    ∧ recordToday (recordToday [(1, ⟨[], false⟩)] 2 []) 2 []
        = recordToday [(1, ⟨[], false⟩)] 2 [] :=
  recordToday_overwrites [(1, ⟨[], false⟩)] 2 [] [⟨"a", ['x'], true, "d"⟩]
    (by decide)

/-! Lemmas about `toggleTask`. -/

lemma toggleTask_toggleTask (tid : String) (tasks : List Task) :
    toggleTask tid (toggleTask tid tasks) = tasks := by
  induction tasks with
  | nil => rfl
  | cons t rest ih =>
    by_cases h : t.id = tid
    · obtain ⟨ti, tx, td, tc⟩ := t
      simp only [Task.id] at h
      subst h
      simp [toggleTask, Bool.not_not]
    · simp [toggleTask, h, ih]

lemma toggleTask_eq_set (tid : String) (tasks : List Task)
    (hmem : tid ∈ tasks.map Task.id) :
    ∃ i, ∃ hi : i < tasks.length,
      (tasks.get ⟨i, hi⟩).id = tid ∧
      toggleTask tid tasks
        = tasks.set i
            { tasks.get ⟨i, hi⟩ with done := !(tasks.get ⟨i, hi⟩).done } := by
  induction tasks with
  | nil => simp at hmem
  | cons t rest ih =>
    by_cases h : t.id = tid
    · exact ⟨0, Nat.succ_pos _, h, by simp [toggleTask, h]⟩
    · have hmem' : tid ∈ rest.map Task.id := by
        rcases List.mem_map.1 hmem with ⟨u, hu, hid⟩
        rcases List.mem_cons.1 hu with hu | hu
        · exact absurd (hu ▸ hid) h
        · exact List.mem_map.2 ⟨u, hu, hid⟩
      obtain ⟨i, hi, hid, hset⟩ := ih hmem'
      exact ⟨i + 1, Nat.succ_lt_succ hi, hid, by simp [toggleTask, h, hset]⟩

/-- C9: toggling a task id twice restores the task list, and a single
toggle only replaces the entry holding that id with the same task whose
`done` flag is negated (all other tasks and all other fields are
untouched). -/
theorem toggleTask_involution (tasks : List Task) (tid : String)
    (_hnd : (tasks.map Task.id).Nodup) (hmem : tid ∈ tasks.map Task.id) :
    toggleTask tid (toggleTask tid tasks) = tasks
    ∧ ∃ i, ∃ hi : i < tasks.length,
        (tasks.get ⟨i, hi⟩).id = tid ∧
        toggleTask tid tasks
          = tasks.set i
              { tasks.get ⟨i, hi⟩ with done := !(tasks.get ⟨i, hi⟩).done } :=
  ⟨toggleTask_toggleTask tid tasks, toggleTask_eq_set tid tasks hmem⟩

/-- C9 witness: toggling the second task of a concrete two-task list. -/
theorem toggleTask_involution_witness :
    toggleTask "b" (toggleTask "b"
        [⟨"a", ['x'], false, "c"⟩, ⟨"b", ['y'], false, "c"⟩])
      = [⟨"a", ['x'], false, "c"⟩, ⟨"b", ['y'], false, "c"⟩]
    ∧ ∃ i, ∃ hi : i <
        ([⟨"a", ['x'], false, "c"⟩, ⟨"b", ['y'], false, "c"⟩] : List Task).length,
        (([⟨"a", ['x'], false, "c"⟩, ⟨"b", ['y'], false, "c"⟩] : List Task).get
            ⟨i, hi⟩).id = "b" ∧
        toggleTask "b" [⟨"a", ['x'], false, "c"⟩, ⟨"b", ['y'], false, "c"⟩]
          = ([⟨"a", ['x'], false, "c"⟩, ⟨"b", ['y'], false, "c"⟩] : List Task).set i
              { ([⟨"a", ['x'], false, "c"⟩, ⟨"b", ['y'], false, "c"⟩] :
                  List Task).get ⟨i, hi⟩ with
                done := !(([⟨"a", ['x'], false, "c"⟩,
                    ⟨"b", ['y'], false, "c"⟩] : List Task).get ⟨i, hi⟩).done } :=
  toggleTask_involution
    [⟨"a", ['x'], false, "c"⟩, ⟨"b", ['y'], false, "c"⟩] "b"
    (by decide) (by decide)

/-! Lemmas about the backwards scan of `deleteLastTask`. -/

lemma scanBack_none_all_done (tasks : List Task) :
    ∀ m, scanBack tasks m = none →
      ∀ j, j < m → ∀ t, tasks[j]? = some t → t.done = true := by
  intro m
  induction m with
  | zero => intro _ j hj; omega
  | succ m ih =>
    intro hscan j hj t hjt
    rw [scanBack] at hscan
    rcases hm : tasks[m]? with _ | u
    · rw [hm] at hscan
      rcases Nat.lt_succ_iff_lt_or_eq.1 hj with hj' | hj'
      · exact ih hscan j hj' t hjt
      · subst hj'; rw [hm] at hjt; cases hjt
    · rw [hm] at hscan
      by_cases hd : u.done
      · simp only [hd, Bool.not_true, Bool.false_eq_true, if_neg, ite_false] at hscan
        rcases Nat.lt_succ_iff_lt_or_eq.1 hj with hj' | hj'
        · exact ih hscan j hj' t hjt
        · subst hj'; rw [hm] at hjt; cases hjt; exact hd
      · simp [hd] at hscan

lemma scanBack_some_spec (tasks : List Task) :
    ∀ m i, scanBack tasks m = some i →
      i < m ∧ (∃ t, tasks[i]? = some t ∧ t.done = false)
      ∧ ∀ j, i < j → j < m → ∀ t, tasks[j]? = some t → t.done = true := by
  intro m
  induction m with
  | zero => intro i hscan; cases hscan
  | succ m ih =>
    intro i hscan
    rw [scanBack] at hscan
    rcases hm : tasks[m]? with _ | u
    · rw [hm] at hscan
      obtain ⟨hlt, hw, hafter⟩ := ih i hscan
      refine ⟨Nat.lt_succ_of_lt hlt, hw, ?_⟩
      intro j hij hj t hjt
      rcases Nat.lt_succ_iff_lt_or_eq.1 hj with hj' | hj'
      · exact hafter j hij hj' t hjt
      · subst hj'; rw [hm] at hjt; cases hjt
    · rw [hm] at hscan
      by_cases hd : u.done
      · simp only [hd, Bool.not_true, Bool.false_eq_true, if_neg, ite_false] at hscan
        obtain ⟨hlt, hw, hafter⟩ := ih i hscan
        refine ⟨Nat.lt_succ_of_lt hlt, hw, ?_⟩
        intro j hij hj t hjt
        rcases Nat.lt_succ_iff_lt_or_eq.1 hj with hj' | hj'
        · exact hafter j hij hj' t hjt
        · subst hj'; rw [hm] at hjt; cases hjt; exact hd
      · simp only [hd, Bool.not_false, if_pos, ite_true, Option.some.injEq] at hscan
        subst hscan
        refine ⟨Nat.lt_succ_self _, ⟨u, hm, by simpa using hd⟩, ?_⟩
        intro j hij hj t hjt
        omega

/-- C7: when the task list holds at least one not-done task,
`deleteLastTask` removes exactly the last not-done task — the entry at an
index `i` that is not done while every entry after `i` is done — and the
result is the original list with only that index erased, so every
completed task (including those after the removed one) is kept unchanged
in order. -/
theorem deleteLastTask_removes_last_undone (tasks : List Task)
    (hex : ∃ t ∈ tasks, t.done = false) :
    ∃ i, ∃ hi : i < tasks.length,
      (tasks.get ⟨i, hi⟩).done = false
      ∧ (∀ j (hj : j < tasks.length), i < j → (tasks.get ⟨j, hj⟩).done = true)
      ∧ deleteLastTask tasks = tasks.eraseIdx i := by
  rcases hscan : scanBack tasks tasks.length with _ | i
  · exfalso
    obtain ⟨t, htmem, htdone⟩ := hex
    obtain ⟨j, hj, hjt⟩ := List.getElem_of_mem htmem
    have : t.done = true :=
      scanBack_none_all_done tasks tasks.length hscan j hj t
        (by rw [List.getElem?_eq_getElem hj, hjt])
    rw [this] at htdone; cases htdone
  · obtain ⟨hi, ⟨t, hti, htdone⟩, hafter⟩ :=
      scanBack_some_spec tasks tasks.length i hscan
    have hgt : tasks[i] = t := by
      rw [List.getElem?_eq_getElem hi] at hti
      exact Option.some.inj hti
    refine ⟨i, hi, ?_, ?_, ?_⟩
    · rw [List.get_eq_getElem, hgt]; exact htdone
    · intro j hj hij
      rw [List.get_eq_getElem]
      exact hafter j hij hj tasks[j] (List.getElem?_eq_getElem hj)
    · rw [deleteLastTask, hscan]

/-- C7 witness: a concrete list where a completed task follows the last
not-done task; the not-done one at index 1 is removed. -/
theorem deleteLastTask_removes_last_undone_witness :
    ∃ i, ∃ hi : i <
        ([⟨"a", ['x'], true, "c"⟩, ⟨"b", ['y'], false, "c"⟩,
          ⟨"c", ['z'], true, "c"⟩] : List Task).length,
      (([⟨"a", ['x'], true, "c"⟩, ⟨"b", ['y'], false, "c"⟩,
          ⟨"c", ['z'], true, "c"⟩] : List Task).get ⟨i, hi⟩).done = false
      ∧ (∀ j (hj : j < ([⟨"a", ['x'], true, "c"⟩, ⟨"b", ['y'], false, "c"⟩,
            ⟨"c", ['z'], true, "c"⟩] : List Task).length), i < j →
          (([⟨"a", ['x'], true, "c"⟩, ⟨"b", ['y'], false, "c"⟩,
            ⟨"c", ['z'], true, "c"⟩] : List Task).get ⟨j, hj⟩).done = true)
      ∧ deleteLastTask
            [⟨"a", ['x'], true, "c"⟩, ⟨"b", ['y'], false, "c"⟩,
              ⟨"c", ['z'], true, "c"⟩]
          = ([⟨"a", ['x'], true, "c"⟩, ⟨"b", ['y'], false, "c"⟩,
              ⟨"c", ['z'], true, "c"⟩] : List Task).eraseIdx i :=
  deleteLastTask_removes_last_undone
    [⟨"a", ['x'], true, "c"⟩, ⟨"b", ['y'], false, "c"⟩, ⟨"c", ['z'], true, "c"⟩]
    ⟨⟨"b", ['y'], false, "c"⟩, by decide, rfl⟩

/-! Lemmas about `jsTrim` and `addTask`. -/

lemma dropWhile_dropWhile (p : Char → Bool) (l : List Char) :
    (l.dropWhile p).dropWhile p = l.dropWhile p := by
  induction l with
  | nil => rfl
  | cons a l ih =>
    by_cases h : p a
    · simp only [List.dropWhile_cons, h, ite_true]; exact ih
    · simp [List.dropWhile_cons, h]

lemma dropWhile_is_suffix (p : Char → Bool) (l : List Char) :
    ∃ u, u ++ l.dropWhile p = l := by
  induction l with
  | nil => exact ⟨[], rfl⟩
  | cons a l ih =>
    by_cases h : p a
    · obtain ⟨u, hu⟩ := ih
      exact ⟨a :: u, by simp [List.dropWhile_cons, h, hu]⟩
    · exact ⟨[], by simp [List.dropWhile_cons, h]⟩

lemma dropWhile_eq_self_of_front (p : Char → Bool) (a b : List Char)
    (hpre : ∃ u, b ++ u = a) (ha : a.dropWhile p = a) :
    b.dropWhile p = b := by
  rcases b with _ | ⟨x, b⟩
  · rfl
  · obtain ⟨u, hu⟩ := hpre
    have hx : p x = false := by
      by_contra hpx
      have hpx' : p x = true := by
        cases hx' : p x
        · exact absurd hx' hpx
        · rfl
      rw [← hu, List.cons_append, List.dropWhile_cons, hpx', if_pos rfl] at ha
      have hlen := congrArg List.length ha
      rw [List.length_cons, List.length_append] at hlen
      have hle : ((b ++ u).dropWhile p).length ≤ b.length + u.length := by
        obtain ⟨w, hw⟩ := dropWhile_is_suffix p (b ++ u)
        have hlen2 := congrArg List.length hw
        rw [List.length_append, List.length_append] at hlen2
        omega
      omega
    simp [List.dropWhile_cons, hx]

lemma jsTrim_idem (s : List Char) : jsTrim (jsTrim s) = jsTrim s := by
  unfold jsTrim
  set a := s.dropWhile isWs with ha
  set w := a.reverse.dropWhile isWs with hw
  have hfrontA : a.dropWhile isWs = a := by
    rw [ha]; exact dropWhile_dropWhile isWs s
  have hpre : ∃ u, w.reverse ++ u = a := by
    obtain ⟨u, hu⟩ := dropWhile_is_suffix isWs a.reverse
    refine ⟨u.reverse, ?_⟩
    have := congrArg List.reverse hu
    simpa [hw] using this
  have hfrontB : w.reverse.dropWhile isWs = w.reverse :=
    dropWhile_eq_self_of_front isWs a w.reverse hpre hfrontA
  have hbackB : w.reverse.reverse.dropWhile isWs = w.reverse.reverse := by
    rw [List.reverse_reverse, hw]
    exact dropWhile_dropWhile isWs a.reverse
  rw [hfrontB, hbackB, List.reverse_reverse]

/-- C10: a blank input leaves the task list untouched, a non-blank input
appends exactly one task whose text is the trimmed input and whose `done`
flag is false, and therefore `addTask` preserves the invariant that every
stored task's text is a non-empty trimmed string. -/
theorem addTask_trim_invariant (freshId now : String) (text : List Char)
    (tasks : List Task) :
    (jsTrim text = [] → addTask freshId now text tasks = tasks)
    ∧ (jsTrim text ≠ [] →
        addTask freshId now text tasks
          = tasks
              ++ [{ id := freshId, text := jsTrim text, done := false,
                    createdAt := now }])
    ∧ ((∀ t ∈ tasks, t.text ≠ [] ∧ jsTrim t.text = t.text) →
        ∀ t ∈ addTask freshId now text tasks,
          t.text ≠ [] ∧ jsTrim t.text = t.text) := by
  refine ⟨fun hb => by simp [addTask, hb], fun hb => by simp [addTask, hb, createTask],
    fun hinv t ht => ?_⟩
  by_cases hb : jsTrim text = []
  · rw [addTask, if_pos hb] at ht
    exact hinv t ht
  · rw [addTask, if_neg hb] at ht
    rcases List.mem_append.1 ht with ht | ht
    · exact hinv t ht
    · rcases List.mem_singleton.1 ht with rfl
      exact ⟨hb, jsTrim_idem text⟩

/-- C10 witness: adding the text " hi " to an already-well-formed
single-task list appends the trimmed task and keeps the invariant. -/
theorem addTask_trim_invariant_witness :
    addTask "b" "d" [' ', 'h', 'i', ' '] [⟨"a", ['x'], false, "c"⟩]
      = [⟨"a", ['x'], false, "c"⟩]
          ++ [{ id := "b", text := jsTrim [' ', 'h', 'i', ' '], done := false,
                createdAt := "d" }]
    ∧ ∀ t ∈ addTask "b" "d" [' ', 'h', 'i', ' '] [⟨"a", ['x'], false, "c"⟩],
        t.text ≠ [] ∧ jsTrim t.text = t.text :=
  ⟨(addTask_trim_invariant "b" "d" [' ', 'h', 'i', ' ']
      [⟨"a", ['x'], false, "c"⟩]).2.1 (by decide),
    (addTask_trim_invariant "b" "d" [' ', 'h', 'i', ' ']
      [⟨"a", ['x'], false, "c"⟩]).2.2 (by decide)⟩

/-- C8: on an `UPDATE_BADGE` message the badge text is the decimal
rendering of the count when it is positive, and the badge is cleared
(text set to the empty string) when the count is absent or zero. -/
theorem badge_update_spec (c : Option Int) :
    (∀ k : Int, c = some k → 0 < k →
        onMessageBadgeText ⟨"UPDATE_BADGE", c⟩ = some (toString k))
    ∧ ((c = none ∨ c = some 0) →
        onMessageBadgeText ⟨"UPDATE_BADGE", c⟩ = some "") := by
  constructor
  · intro k hk hpos
    subst hk
    simp [onMessageBadgeText, hpos]
  · rintro (rfl | rfl) <;> simp [onMessageBadgeText]

/-- C8 witness: a count of 3 renders "3" and an absent count clears the
badge. -/
theorem badge_update_spec_witness :
    onMessageBadgeText ⟨"UPDATE_BADGE", some 3⟩ = some (toString (3 : Int))
    ∧ onMessageBadgeText ⟨"UPDATE_BADGE", none⟩ = some "" :=
  ⟨(badge_update_spec (some 3)).1 3 rfl (by decide),
    (badge_update_spec none).2 (Or.inl rfl)⟩

/-! Adequacy of the fuel used by the backwards streak walk: with fuel
`h.length` the walk computes the same count as with any larger fuel, so
the fueled `backRun` is a faithful rendering of the source's unbounded
`while (true)` loop. -/

lemma backRun_le_fuel (h : History) : ∀ fuel d, backRun h d fuel ≤ fuel := by
  intro fuel
  induction fuel with
  | zero => intro d; simp [backRun]
  | succ fuel ih =>
    intro d
    rw [backRun]
    by_cases hd : allDoneAt h d
    · simpa [hd] using ih (d - 1)
    · simp [hd]

lemma backRun_mono (h : History) :
    ∀ fuel gas d, fuel ≤ gas → backRun h d fuel ≤ backRun h d gas := by
  intro fuel
  induction fuel with
  | zero => intro gas d _; simp [backRun]
  | succ fuel ih =>
    intro gas d hle
    obtain ⟨gas, rfl⟩ : ∃ g, gas = g + 1 := ⟨gas - 1, by omega⟩
    rw [backRun, backRun]
    by_cases hd : allDoneAt h d
    · simpa [hd] using ih gas (d - 1) (by omega)
    · simp [hd]

lemma backRun_allDone (h : History) :
    ∀ fuel d i, i < backRun h d fuel → allDoneAt h (d - i) = true := by
  intro fuel
  induction fuel with
  | zero => intro d i hi; simp [backRun] at hi
  | succ fuel ih =>
    intro d i hi
    rw [backRun] at hi
    by_cases hd : allDoneAt h d
    · rw [if_pos hd] at hi
      rcases i with _ | j
      · simpa using hd
      · have : (d - 1) - j = d - (j + 1 : Nat) := by push_cast; ring
        rw [← this]
        exact ih (d - 1) j (by omega)
    · rw [if_neg hd] at hi; omega

lemma allDoneAt_mem_keys (h : History) (d : Int)
    (hd : allDoneAt h d = true) : d ∈ h.keys := by
  induction h with
  | nil => simp [allDoneAt, hLookup] at hd
  | cons kv rest ih =>
    obtain ⟨k, v⟩ := kv
    by_cases hk : k = d
    · simp [History.keys, hk]
    · rw [allDoneAt, hLookup, if_neg hk] at hd
      exact List.mem_cons_of_mem _ (ih hd)

lemma consecutive_allDone_le_length (h : History) (d : Int) (m : Nat)
    (hall : ∀ i, i < m → allDoneAt h (d - i) = true) : m ≤ h.length := by
  classical
  have hinj : Function.Injective fun i : ℕ => d - i := by
    intro i j hij
    simp only at hij
    omega
  have hsub : (Finset.range m).image (fun i : ℕ => d - i) ⊆ h.keys.toFinset := by
    intro x hx
    rcases Finset.mem_image.1 hx with ⟨i, hi, rfl⟩
    exact List.mem_toFinset.2 (allDoneAt_mem_keys h _ (hall i (Finset.mem_range.1 hi)))
  have hcard := Finset.card_le_card hsub
  rw [Finset.card_image_of_injective _ hinj, Finset.card_range] at hcard
  have hlen : h.keys.toFinset.card ≤ h.keys.length := List.toFinset_card_le _
  have hkl : h.keys.length = h.length := List.length_map _ _
  omega

lemma backRun_ge (h : History) :
    ∀ (m fuel : Nat) (d : Int),
      (∀ i : Nat, i < m → allDoneAt h (d - i) = true) → m ≤ fuel →
      m ≤ backRun h d fuel := by
  intro m
  induction m with
  | zero => intro fuel d _ _; omega
  | succ m ih =>
    intro fuel d hall hle
    obtain ⟨fuel, rfl⟩ : ∃ f, fuel = f + 1 := ⟨fuel - 1, by omega⟩
    have hd : allDoneAt h d = true := by simpa using hall 0 (by omega)
    rw [backRun, if_pos hd]
    have hall' : ∀ i, i < m → allDoneAt h ((d - 1) - i) = true := by
      intro i hi
      have : (d - 1) - i = d - (i + 1 : Nat) := by push_cast; ring
      rw [this]
      exact hall (i + 1) (by omega)
    have := ih fuel (d - 1) hall' (by omega)
    omega

lemma backRun_fuel_sufficient (h : History) (d : Int) (fuel : Nat)
    (hf : h.length ≤ fuel) : backRun h d fuel = backRun h d h.length := by
  have hmono := backRun_mono h h.length fuel d hf
  have hall : ∀ i, i < backRun h d fuel → allDoneAt h (d - i) = true :=
    backRun_allDone h fuel d
  have hle : backRun h d fuel ≤ h.length :=
    consecutive_allDone_le_length h d _ hall
  have hge : backRun h d fuel ≤ backRun h d h.length :=
    backRun_ge h (backRun h d fuel) h.length d hall hle
  omega

/-! Refinement of the current-streak walk against the spec's procedure. -/

lemma backRun_eq_specWalkBack (h : History) :
    ∀ fuel d, backRun h d fuel = specWalkBack h d fuel := by
  intro fuel
  induction fuel with
  | zero => intro d; rfl
  | succ fuel ih =>
    intro d
    rw [backRun, specWalkBack, allDoneAt]
    rcases hl : hLookup h d with _ | s
    · rfl
    · by_cases hs : s.allDone <;> simp [hs, ih (d - 1), Nat.add_comm]

lemma keys_eq_nil_of_sorted_nil (h : History)
    (hd : h.keys.insertionSort (· ≤ ·) = []) : h = [] := by
  have hperm := List.perm_insertionSort (· ≤ ·) h.keys
  rw [hd] at hperm
  have hk : h.keys = [] := hperm.symm.eq_nil
  exact List.map_eq_nil_iff.1 hk

/-- C1: the current-streak component of `calculateStreak` coincides with
the spec's procedure (count today when its entry exists all-done, then
count consecutive preceding recorded all-done days until the first gap),
and on the history holding today and the three preceding days all-done
with the fourth-preceding day absent it returns current 4 and best 4. -/
theorem calculateStreak_current_refines :
    (∀ (h : History) (today : Int),
        (calculateStreak h today).1 = specCurrentStreak h today)
    ∧ calculateStreak exampleRun4 100 = (4, 4) := by
  refine ⟨?_, by decide⟩
  intro h today
  by_cases hdates : h.keys.insertionSort (· ≤ ·) = []
  · have hnil : h = [] := keys_eq_nil_of_sorted_nil h hdates
    subst hnil
    simp [calculateStreak, specCurrentStreak, History.keys, hLookup, specWalkBack]
  · rw [calculateStreak, specCurrentStreak]
    simp only [if_neg hdates]
    rw [backRun_eq_specWalkBack]
    rcases hl : hLookup h today with _ | s
    · simp [allDoneAt, hl]
    · by_cases hs : s.allDone <;> simp [allDoneAt, hl, hs]

/-- C3 counterexample: on the history with a five-day all-done run two
weeks before today (days 86-90), a two-day all-done run ending yesterday
(days 98-99) and no entry for today (day 100), `calculateStreak` does not
return current 0 and best 5. -/
theorem calculateStreak_gap_runs_counterexample :
    calculateStreak exampleGapRuns 100 ≠ (0, 5) := by decide

/-- C3 amended: on that same history `calculateStreak` returns current 2
(the two-day run ending yesterday is still in progress, because a not-yet-
completed today does not break the streak) and best 5. -/
theorem calculateStreak_gap_runs :
    calculateStreak exampleGapRuns 100 = (2, 5) := by decide

/-! Agreement of the best-streak scan with the spec's calendar-adjacency
scan.  The source compares each sorted date with the previous sorted
entry; the spec looks the immediately preceding calendar day up in the
whole history.  On a strictly ascending key list these coincide. -/

lemma allDoneAt_eq_false_of_not_mem (h : History) (d : Int)
    (hd : d ∉ h.keys) : allDoneAt h d = false := by
  cases ha : allDoneAt h d
  · rfl
  · exact absurd (allDoneAt_mem_keys h d ha) hd

lemma bestScanAux_eq_specScanAux (h : History) :
    ∀ (l : List Int) (p : Int) (run best : Nat),
      List.Chain' (· < ·) (p :: l) →
      (∀ x ∈ h.keys, x ≤ p ∨ x ∈ l) →
      bestScanAux h l (some p) run best = specScanAux h l false run best := by
  intro l
  induction l with
  | nil => intro p run best _ _; rfl
  | cons e rest ih =>
    intro p run best hchain hcover
    have hpe : p < e := List.chain'_cons.1 hchain |>.1
    have hchain' : List.Chain' (· < ·) (e :: rest) :=
      List.chain'_cons.1 hchain |>.2
    have hrest_gt : ∀ x ∈ rest, e < x := by
      have hpw : List.Pairwise (· < ·) (e :: rest) :=
        List.chain'_iff_pairwise.1 hchain'
      exact (List.pairwise_cons.1 hpw).1
    have hcond : allDoneAt h (e - 1) = true ↔ (e - p = 1 ∧ allDoneAt h p) := by
      constructor
      · intro hdone
        have hmem := allDoneAt_mem_keys h (e - 1) hdone
        rcases hcover (e - 1) hmem with hle | hin
        · have hp : p = e - 1 := by omega
          exact ⟨by omega, by rwa [hp]⟩
        · rcases List.mem_cons.1 hin with heq | hin'
          · omega
          · have := hrest_gt _ hin'
            omega
      · rintro ⟨hdiff, hdone⟩
        have hp : p = e - 1 := by omega
        rwa [← hp]
    have hcover' : ∀ x ∈ h.keys, x ≤ e ∨ x ∈ rest := by
      intro x hx
      rcases hcover x hx with hle | hin
      · exact Or.inl (by omega)
      · rcases List.mem_cons.1 hin with rfl | hin'
        · exact Or.inl le_rfl
        · exact Or.inr hin'
    rw [bestScanAux, specScanAux]
    by_cases hde : allDoneAt h e
    · rw [if_pos hde, if_pos hde]
      have hruns :
          (if e - p = 1 ∧ allDoneAt h p then run + 1 else 1)
            = (if (false || allDoneAt h (e - 1) : Bool) then run + 1 else 1) := by
        by_cases hc : e - p = 1 ∧ allDoneAt h p
        · rw [if_pos hc, if_pos (by simpa using hcond.2 hc)]
        · rw [if_neg hc]
          have : allDoneAt h (e - 1) = false := by
            cases hval : allDoneAt h (e - 1)
            · rfl
            · exact absurd (hcond.1 hval) hc
          rw [if_neg (by simp [this])]
      simp only [← hruns]
      exact ih e _ _ hchain' hcover'
    · rw [if_neg hde, if_neg hde]
      exact ih e 0 best hchain' hcover'

lemma bestScanAux_eq_specScanAux_first (h : History) (l : List Int)
    (hchain : List.Chain' (· < ·) l) (hcover : ∀ x ∈ h.keys, x ∈ l) :
    bestScanAux h l none 0 0 = specScanAux h l true 0 0 := by
  rcases l with _ | ⟨e, rest⟩
  · rfl
  · have hchain' : List.Chain' (· < ·) (e :: rest) := hchain
    have hcover' : ∀ x ∈ h.keys, x ≤ e ∨ x ∈ rest := by
      intro x hx
      rcases List.mem_cons.1 (hcover x hx) with rfl | hin
      · exact Or.inl le_rfl
      · exact Or.inr hin
    rw [bestScanAux, specScanAux]
    by_cases hde : allDoneAt h e
    · rw [if_pos hde, if_pos hde]
      simp only [Bool.true_or, if_pos]
      exact bestScanAux_eq_specScanAux h rest e 1 (max 0 1) hchain' hcover'
    · rw [if_neg hde, if_neg hde]
      exact bestScanAux_eq_specScanAux h rest e 0 0 hchain' hcover'

/-- C2: the best component of `calculateStreak` is the maximum of the
current streak and the longest run found by the spec's ascending scan, in
which a run extends only when the immediately preceding calendar day is
recorded all-done (so two recorded dates that are not calendar-adjacent
are never treated as consecutive), an all-done entry after a gap restarts
the run at 1, and a not-all-done entry resets it to 0. -/
theorem calculateStreak_best_refines (h : History) (today : Int)
    (hnd : h.keys.Nodup) :
    (calculateStreak h today).2
      = max (calculateStreak h today).1 (specBestScan h) := by
  by_cases hdates : h.keys.insertionSort (· ≤ ·) = []
  · have hnil := keys_eq_nil_of_sorted_nil h hdates
    subst hnil
    simp [calculateStreak, specBestScan, History.keys, specScanAux]
  · have hperm := List.perm_insertionSort (· ≤ ·) h.keys
    have hsorted : List.Sorted (· ≤ ·) (h.keys.insertionSort (· ≤ ·)) :=
      List.sorted_insertionSort (· ≤ ·) h.keys
    have hnd' : (h.keys.insertionSort (· ≤ ·)).Nodup := hperm.nodup_iff.2 hnd
    have hlt : List.Sorted (· < ·) (h.keys.insertionSort (· ≤ ·)) :=
      hsorted.lt_of_le hnd'
    have hchain : List.Chain' (· < ·) (h.keys.insertionSort (· ≤ ·)) :=
      List.chain'_iff_pairwise.2 hlt
    have hcover : ∀ x ∈ h.keys, x ∈ h.keys.insertionSort (· ≤ ·) := fun x hx =>
      hperm.mem_iff.2 hx
    rw [calculateStreak, specBestScan]
    simp only [if_neg hdates]
    rw [bestScanAux_eq_specScanAux_first h _ hchain hcover, Nat.max_comm]

/-- C2 witness: the best component on the two-run history equals the
maximum of the current streak and the spec's scan result. -/
theorem calculateStreak_best_refines_witness :
    (calculateStreak exampleGapRuns 100).2
      = max (calculateStreak exampleGapRuns 100).1 (specBestScan exampleGapRuns) :=
  calculateStreak_best_refines exampleGapRuns 100 (by decide)

/-! Structure of the rendered month grid. -/

lemma range_map_const_eq_replicate {α : Type} (n : Nat) (c : α) :
    (List.range n).map (fun _ => c) = List.replicate n c :=
  List.eq_replicate_iff.2
    ⟨by simp, fun b hb => by rcases List.mem_map.1 hb with ⟨_, _, rfl⟩; rfl⟩

/-- C6: the month grid starts with exactly as many empty padding cells as
the weekday index of the first of the month (0 = Sunday, the configured
week start), followed by one day cell per day of the month in order; for
October 2025 — a month whose first falls on a Wednesday — there are
exactly 3 leading empty cells before day 1. -/
theorem layoutMonth_padding (h : History) (today year : Int) (month : Nat) :
    (layoutMonth h today year month).take (firstWeekday year month)
        = List.replicate (firstWeekday year month) CalendarCell.empty
    ∧ (layoutMonth h today year month).length
        = firstWeekday year month + daysInMonth year month
    ∧ (∀ i, i < daysInMonth year month →
        (layoutMonth h today year month)[firstWeekday year month + i]?
          = some (mkDayCell h today year month (i + 1)))
    ∧ firstWeekday 2025 9 = 3 := by
  have hpad : (List.range (firstWeekday year month)).map
      (fun _ => CalendarCell.empty)
        = List.replicate (firstWeekday year month) CalendarCell.empty :=
    range_map_const_eq_replicate _ _
  have hpadlen : ((List.range (firstWeekday year month)).map
      (fun _ => CalendarCell.empty)).length = firstWeekday year month := by simp
  refine ⟨?_, ?_, ?_, by decide⟩
  · rw [layoutMonth, List.take_left' hpadlen, hpad]
  · rw [layoutMonth]
    simp
  · intro i hi
    rw [layoutMonth, List.getElem?_append_right (by omega), hpadlen]
    simp only [Nat.add_sub_cancel_left, List.getElem?_map]
    rw [List.getElem?_range' 1 1 hi]
    simp [Nat.add_comm]

/-- C6 witness: the padding of October 2025 (month index 9) on the
concrete four-day history is three empty cells, the grid has 3 + 31
cells, and the cell after the padding is day 1. -/
theorem layoutMonth_padding_witness :
    (layoutMonth exampleRun4 100 2025 9).take (firstWeekday 2025 9)
        = List.replicate (firstWeekday 2025 9) CalendarCell.empty
    ∧ (layoutMonth exampleRun4 100 2025 9).length
        = firstWeekday 2025 9 + daysInMonth 2025 9
    ∧ (layoutMonth exampleRun4 100 2025 9)[firstWeekday 2025 9 + 0]?
        = some (mkDayCell exampleRun4 100 2025 9 (0 + 1)) :=
  ⟨(layoutMonth_padding exampleRun4 100 2025 9).1,
    (layoutMonth_padding exampleRun4 100 2025 9).2.1,
    (layoutMonth_padding exampleRun4 100 2025 9).2.2.1 0 (by decide)⟩

end TaskTab
